import Mathlib

/-!
Shallow embedding of the PolaPy aggregation / divisiveness core
(`polapy/aggregate/{borda,copeland,winrate,elo,ahp,divisiveness}.py`).

Conventions of the embedding:
* a pandas DataFrame of pairwise comparison rows is a `List (PairVote α)`
  (columns `proposal`, `wins_over`, `count`), and the voter-identified
  dataset of the exact divisiveness mode is a `List (VoterVote α V)`;
* vote counts are `ℚ` (Python numbers, exact arithmetic); quantities that
  are genuinely transcendental in the source (Elo's `10 ** x` and
  `np.log1p`, divisiveness' `np.sqrt`) live in `ℝ`;
* `pandas.groupby` sorts its keys, and `sort_values` sorts rows; both are
  modelled with `List.insertionSort`, which is a valid determinization of
  the unstable quicksort used by `sort_values`;
* a Python `set(...) | set(...)` of ids is determinized as `List.dedup`
  of the concatenation (first-appearance order).
-/

namespace Polapy

/-- One row of a pairwise-comparison DataFrame: `proposal` beat
`wins_over`, `count` times. -/
structure PairVote (α : Type) where
  proposal : α
  wins_over : α
  count : ℚ
deriving DecidableEq, Repr

/-- One row of a voter-identified dataset (exact divisiveness mode). -/
structure VoterVote (α : Type) (V : Type) where
  voter : V
  proposal : α
  wins_over : α
  count : ℚ
deriving DecidableEq, Repr

variable {α : Type} {V : Type}

/-- The alternative universe: `set(data[proposal].unique()) |
set(data[wins_over].unique())`, determinized in first-appearance order. -/
def allProposals [DecidableEq α] (data : List (PairVote α)) : List α :=
  ((data.map PairVote.proposal) ++ (data.map PairVote.wins_over)).dedup

/-- Total votes recorded for `x` over `y`:
`data[(data[proposal] == x) & (data[wins_over] == y)][count].sum()`. -/
def pairVotes [DecidableEq α] (data : List (PairVote α)) (x y : α) : ℚ :=
  ((data.filter (fun r => r.proposal = x ∧ r.wins_over = y)).map
    PairVote.count).sum

/-- Lexicographic order on (winner, loser) keys, as used by
`groupby([proposal, wins_over])` when sorting its keys. -/
def pairLE [LinearOrder α] (a b : α × α) : Prop :=
  a.1 < b.1 ∨ (a.1 = b.1 ∧ a.2 ≤ b.2)

instance [LinearOrder α] : DecidableRel (pairLE (α := α)) := fun a b => by
  unfold pairLE; infer_instance

instance [LinearOrder α] : IsTotal (α × α) pairLE := by
  constructor
  intro a b
  rcases lt_trichotomy a.1 b.1 with h | h | h
  · exact Or.inl (Or.inl h)
  · rcases le_total a.2 b.2 with h2 | h2
    · exact Or.inl (Or.inr ⟨h, h2⟩)
    · exact Or.inr (Or.inr ⟨h.symm, h2⟩)
  · exact Or.inr (Or.inl h)

instance [LinearOrder α] : IsTrans (α × α) pairLE := by
  constructor
  intro a b c hab hbc
  rcases hab with h | ⟨h1, h2⟩
  · rcases hbc with h' | ⟨h1', _⟩
    · exact Or.inl (h.trans h')
    · exact Or.inl (h1' ▸ h)
  · rcases hbc with h' | ⟨h1', h2'⟩
    · exact Or.inl (h1 ▸ h')
    · exact Or.inr ⟨h1.trans h1', h2.trans h2'⟩

instance [LinearOrder α] : IsAntisymm (α × α) pairLE := by
  constructor
  intro a b hab hba
  rcases hab with h | ⟨h1, h2⟩
  · rcases hba with h' | ⟨h1', _⟩
    · exact absurd h' (not_lt_of_lt h)
    · exact absurd h1'.symm (ne_of_lt h)
  · rcases hba with h' | ⟨h1', h2'⟩
    · exact absurd h1.symm (ne_of_lt h')
    · exact Prod.ext h1 (le_antisymm h2 h2')

/-- The Aggregated Pair Table:
`data.groupby([proposal, wins_over])[count].sum().reset_index()`.
One row per distinct (winner, loser) key, keys in sorted order, counts
summed. -/
def aggregatePairs [LinearOrder α] (data : List (PairVote α)) :
    List (PairVote α) :=
  ((data.map (fun r => (r.proposal, r.wins_over))).dedup.insertionSort
    pairLE).map (fun p => ⟨p.1, p.2, pairVotes data p.1 p.2⟩)

/-- Descending-score row order used by
`sort_values("score", ascending=False)`. -/
def scoreGE {β : Type} [LinearOrder β] (a b : α × β) : Prop := b.2 ≤ a.2

instance {β : Type} [LinearOrder β] : DecidableRel (scoreGE (α := α) (β := β)) :=
  fun a b => by unfold scoreGE; infer_instance

instance {β : Type} [LinearOrder β] : IsTotal (α × β) scoreGE :=
  ⟨fun a b => le_total b.2 a.2⟩

instance {β : Type} [LinearOrder β] : IsTrans (α × β) scoreGE :=
  ⟨fun _ _ _ hab hbc => le_trans hbc hab⟩

/-- Sort a score table by descending score. -/
def sortScoreDesc {β : Type} [LinearOrder β] (t : List (α × β)) :
    List (α × β) :=
  t.insertionSort scoreGE

/-- Row lookup with fallback used throughout the source:
`t[t[proposal] == p]["score"].values[0] if len(...) > 0 else 0`. -/
def scoreOfTable {β : Type} [Zero β] [DecidableEq α]
    (t : List (α × β)) (p : α) : β :=
  match t.filter (fun x => x.1 = p) with
  | [] => 0
  | x :: _ => x.2

/-! ## Rank-Sum (Borda) strategy, `borda.py` -/

/-- Borda score of one proposal: `data.groupby(proposal)[count].sum()`
with `fillna(0)` after the merge with the full proposal list. -/
def bordaScore [DecidableEq α] (data : List (PairVote α)) (p : α) : ℚ :=
  ((data.filter (fun r => r.proposal = p)).map PairVote.count).sum

/-- The `borda` strategy: one row per alternative in the universe
(the left-merge with `all_proposals_df` plus `fillna(0)`), sorted by
descending score. -/
def borda [DecidableEq α] (data : List (PairVote α)) : List (α × ℚ) :=
  sortScoreDesc ((allProposals data).map (fun p => (p, bordaScore data p)))

/-! ## Win-Ratio (WinRate) strategy, `winrate.py` -/

/-- Wins accumulator of `winrate`: the loop over the aggregated pair
rows does `wins[winner] += votes`. -/
def winrateWins [LinearOrder α] (data : List (PairVote α)) (p : α) : ℚ :=
  ((aggregatePairs data).map
    (fun r => if r.proposal = p then r.count else 0)).sum

/-- Total-votes accumulator of `winrate`: the loop does
`total_votes[winner] += votes; total_votes[loser] += votes`. -/
def winrateTotal [LinearOrder α] (data : List (PairVote α)) (p : α) : ℚ :=
  ((aggregatePairs data).map
    (fun r => (if r.proposal = p then r.count else 0) +
      (if r.wins_over = p then r.count else 0))).sum

/-- Win-rate score: `wins[p] / total_votes[p] if total_votes[p] > 0
else 0`. -/
def winrateScore [LinearOrder α] (data : List (PairVote α)) (p : α) : ℚ :=
  if winrateTotal data p > 0 then winrateWins data p / winrateTotal data p
  else 0

/-- The `winrate` strategy table. -/
def winrate [LinearOrder α] (data : List (PairVote α)) : List (α × ℚ) :=
  sortScoreDesc ((allProposals data).map (fun p => (p, winrateScore data p)))

/-! ## Net-Win-Count (Copeland) strategy, `copeland.py` -/

/-- The unordered pairs examined by the `copeland` loop: it walks the
aggregated pair rows, keys each row by `tuple(sorted([p1, p2]))`, and
skips keys already seen, so it keeps the first occurrence of each
unordered pair. -/
def copelandUpairs [LinearOrder α] (data : List (PairVote α)) :
    List (α × α) :=
  ((aggregatePairs data).map (fun r =>
    if r.proposal ≤ r.wins_over then (r.proposal, r.wins_over)
    else (r.wins_over, r.proposal))).dedup

/-- Win increment contributed by one unordered pair `q` to proposal `p`:
`wins[p1] += 1` when `p1` has strictly more aggregated votes, and
symmetrically; ties contribute nothing.  The vote totals compared are
the sums over the aggregated table, i.e. `pairVotes`. -/
def copelandWinC [DecidableEq α] (data : List (PairVote α)) (q : α × α)
    (p : α) : ℚ :=
  if pairVotes data q.1 q.2 > pairVotes data q.2 q.1 then
    (if p = q.1 then 1 else 0)
  else if pairVotes data q.2 q.1 > pairVotes data q.1 q.2 then
    (if p = q.2 then 1 else 0)
  else 0

/-- Loss increment contributed by one unordered pair `q` to proposal
`p`: `losses[p2] += 1` when `p1` wins, and symmetrically. -/
def copelandLossC [DecidableEq α] (data : List (PairVote α)) (q : α × α)
    (p : α) : ℚ :=
  if pairVotes data q.1 q.2 > pairVotes data q.2 q.1 then
    (if p = q.2 then 1 else 0)
  else if pairVotes data q.2 q.1 > pairVotes data q.1 q.2 then
    (if p = q.1 then 1 else 0)
  else 0

/-- Copeland score: `wins[p] - losses[p]` accumulated over the unordered
pairs. -/
def copelandScore [LinearOrder α] (data : List (PairVote α)) (p : α) : ℚ :=
  ((copelandUpairs data).map (fun q => copelandWinC data q p)).sum -
  ((copelandUpairs data).map (fun q => copelandLossC data q p)).sum

/-- The `copeland` strategy table. -/
def copeland [LinearOrder α] (data : List (PairVote α)) : List (α × ℚ) :=
  sortScoreDesc ((allProposals data).map (fun p => (p, copelandScore data p)))

/-! ## Iterative Rating (Elo) strategy, `elo.py` -/

/-- Pointwise update of the ratings dict: `ratings[a] = v`. -/
def updAt [DecidableEq α] (f : α → ℝ) (a : α) (v : ℝ) : α → ℝ :=
  fun x => if x = a then v else f x

/-- The logistic expectation
`expected_score(ra, rb) = 1 / (1 + 10 ** ((rb - ra) / 400))`. -/
noncomputable def expectedScore (ra rb : ℝ) : ℝ :=
  1 / (1 + (10 : ℝ) ^ ((rb - ra) / 400))

/-- One record of the Elo loop body: compute both expectations from the
current ratings, scale `k_factor` by `np.log1p(match_count)`, then
update the winner and then the loser. -/
noncomputable def eloStep [DecidableEq α] (k : ℝ) (ratings : α → ℝ)
    (r : PairVote α) : α → ℝ :=
  let expWinner := expectedScore (ratings r.proposal) (ratings r.wins_over)
  let expLoser := expectedScore (ratings r.wins_over) (ratings r.proposal)
  let kScaled := k * Real.log (1 + (r.count : ℝ))
  let r1 := updAt ratings r.proposal
    (ratings r.proposal + kScaled * (1 - expWinner))
  updAt r1 r.wins_over (r1 r.wins_over + kScaled * (0 - expLoser))

/-- One full pass of the Elo loop over the record sequence, in the given
order. -/
noncomputable def eloPass [DecidableEq α] (k : ℝ) (data : List (PairVote α))
    (ratings : α → ℝ) : α → ℝ :=
  data.foldl (eloStep k) ratings

/-- Final Elo ratings dict after `iterations` passes, starting from a
constant `base_rating`. -/
noncomputable def eloRatings [DecidableEq α] (data : List (PairVote α))
    (base k : ℝ) (iterations : ℕ) : α → ℝ :=
  (eloPass k data)^[iterations] (fun _ => base)

/-- The `elo` strategy table: the final ratings of all alternatives
(the dict is keyed by the universe), sorted by descending score. -/
noncomputable def elo [DecidableEq α] (data : List (PairVote α))
    (base k : ℝ) (iterations : ℕ) : List (α × ℝ) :=
  sortScoreDesc ((allProposals data).map
    (fun p => (p, eloRatings data base k iterations p)))

/-! ## Eigenvector Priority (AHP) strategy, `ahp.py` -/

/-- Sorted proposal universe `sorted(set(...) | set(...))`, the index
base of the comparison matrix. -/
def ahpProps [LinearOrder α] (data : List (PairVote α)) : List α :=
  (allProposals data).insertionSort (· ≤ ·)

/-- Raw comparison-matrix cell before the reciprocal pass: the matrix is
seeded with `np.ones`, then the loop over the aggregated pair rows does
`matrix[i, j] += votes_i_over_j`; since the aggregated table has one row
per (winner, loser) key holding the summed count, the cell ends at
`1 + pairVotes`. -/
def ahpRawCell [DecidableEq α] (data : List (PairVote α)) (p q : α) : ℚ :=
  1 + pairVotes data p q

/-- Ratio computed by the reciprocal pass for an upper-triangle cell:
`matrix[i, j] / matrix[j, i] if matrix[j, i] > 0 else matrix[i, j]`. -/
def ahpRatio [DecidableEq α] (data : List (PairVote α)) (p q : α) : ℚ :=
  if ahpRawCell data q p > 0 then ahpRawCell data p q / ahpRawCell data q p
  else ahpRawCell data p q

/-- The reciprocal comparison matrix after the ratio pass and
`np.fill_diagonal(matrix, 1.0)`: for `i < j` the cell is the ratio, the
mirror cell is `1 / ratio if ratio > 0 else 1`, and the diagonal is 1. -/
def ahpMatrix [LinearOrder α] (data : List (PairVote α))
    (i j : Fin (ahpProps data).length) : ℚ :=
  if i = j then 1
  else if i < j then ahpRatio data ((ahpProps data).get i) ((ahpProps data).get j)
  else if ahpRatio data ((ahpProps data).get j) ((ahpProps data).get i) > 0 then
    1 / ahpRatio data ((ahpProps data).get j) ((ahpProps data).get i)
  else 1

/-- The message of the `ValueError` that `np.max` raises on a zero-size
array. -/
def npMaxErr : String :=
  "zero-size array to reduction operation maximum which has no identity"

/-- Python `np.max` over a one-dimensional array: the maximum of a
nonempty array, and a raised `ValueError` on a zero-size array. -/
def npMax : List ℚ → Except String ℚ
  | [] => Except.error npMaxErr
  | x :: xs => Except.ok (xs.foldl max x)

/-- Convergence check of the power method:
`np.max(np.abs(new_weights - weights))`; for an empty alternative
universe the arrays are zero-size and `np.max` raises. -/
def maxAbsDiff {n : ℕ} (v w : Fin n → ℚ) : Except String ℚ :=
  npMax ((List.finRange n).map (fun i => |v i - w i|))

/-- One normalized multiplication of the power method:
`new_weights = matrix @ weights; new_weights / new_weights.sum()`. -/
def powerStep {n : ℕ} (M : Fin n → Fin n → ℚ) (w : Fin n → ℚ) :
    Fin n → ℚ :=
  fun i => (∑ j, M i j * w j) / ∑ i2, ∑ j, M i2 j * w j

/-- The power-method loop: multiply by the matrix, renormalize to sum 1,
and stop early (returning the pre-update vector, as the Python `break`
does) once the maximum coordinate-wise change is below tolerance.  The
convergence check itself can raise: on an empty universe the first
iteration propagates the `ValueError` of `np.max`. -/
def powerIter {n : ℕ} (M : Fin n → Fin n → ℚ) (tol : ℚ) :
    ℕ → (Fin n → ℚ) → Except String (Fin n → ℚ)
  | 0, w => Except.ok w
  | k + 1, w =>
    Except.bind (maxAbsDiff (powerStep M w) w) (fun d =>
      if d < tol then Except.ok w
      else powerIter M tol k (powerStep M w))

/-- The AHP priority weights: the power method started from the uniform
vector `np.ones(n) / n`, run for at most `max_iterations` steps. -/
def ahpWeights [LinearOrder α] (data : List (PairVote α))
    (maxIterations : ℕ) (tol : ℚ) :
    Except String (Fin (ahpProps data).length → ℚ) :=
  powerIter (ahpMatrix data) tol maxIterations
    (fun _ => 1 / ((ahpProps data).length : ℚ))

/-- The `ahp` strategy: the sorted proposals paired with the final
weights, sorted by descending score; an exception raised inside the
power loop propagates to the caller, so no table is returned then. -/
def ahp [LinearOrder α] (data : List (PairVote α)) (maxIterations : ℕ)
    (tol : ℚ) : Except String (List (α × ℚ)) :=
  (ahpWeights data maxIterations tol).map (fun w =>
    sortScoreDesc (List.ofFn (fun i : Fin (ahpProps data).length =>
      ((ahpProps data).get i, w i))))

/-! ## Divisiveness engine, `divisiveness.py` -/

/-- Cast a rational score table to a real one (the exact-valued
strategies and the real-valued Elo share one table interface in the
source; the cast is the identity at the Python level). -/
def ratTable (t : List (α × ℚ)) : List (α × ℝ) :=
  t.map (fun x => (x.1, (x.2 : ℝ)))

/-- An aggregation strategy as consumed by the divisiveness engine:
pairwise table in, score table out. -/
def AggFn (α : Type) : Type := List (PairVote α) → List (α × ℝ)

/-- Drop the voter column of a voter-identified row. -/
def toPair (r : VoterVote α V) : PairVote α :=
  ⟨r.proposal, r.wins_over, r.count⟩

/-- Sorted proposal universe of a voter-identified dataset
(`sorted(set(data[proposal].unique()) | set(data[wins_over].unique()))`). -/
def vProps [LinearOrder α] (data : List (VoterVote α V)) : List α :=
  ((data.map VoterVote.proposal) ++
    (data.map VoterVote.wins_over)).dedup.insertionSort (· ≤ ·)

/-- Voters who somewhere expressed `i` over `j`:
`data[(data[proposal] == i) & (data[wins_over] == j)][voter].unique()`. -/
def votersFor [DecidableEq α] [DecidableEq V] (data : List (VoterVote α V))
    (i j : α) : List V :=
  ((data.filter (fun r => r.proposal = i ∧ r.wins_over = j)).map
    VoterVote.voter).dedup

/-- Restriction of the dataset to a voter set:
`data[data[voter].isin(vs)]`. -/
def subsetData [DecidableEq V] (data : List (VoterVote α V))
    (vs : List V) : List (VoterVote α V) :=
  data.filter (fun r => r.voter ∈ vs)

/-- Score of proposal `i` among the voters who expressed `x` over `y`:
if that voter set is empty the side contributes 0, otherwise restrict
the dataset to those voters, re-aggregate by (winner, loser), run the
strategy, and look up the row of `i` (0 when absent). -/
noncomputable def sideScore [LinearOrder α] [DecidableEq V]
    (data : List (VoterVote α V)) (agg : AggFn α) (x y i : α) : ℝ :=
  if votersFor data x y = [] then 0
  else scoreOfTable (agg (aggregatePairs
    ((subsetData data (votersFor data x y)).map toPair))) i

/-- Accumulated squared score differences of proposal `i` across all
rivals `j`: for each rival, the difference between the score of `i`
among the i-over-j voters and the score of `i` among the j-over-i
voters. -/
noncomputable def squaredDiffsSum [LinearOrder α] [DecidableEq V]
    (data : List (VoterVote α V)) (agg : AggFn α) (i : α) : ℝ :=
  (((vProps data).filter (fun j => j ≠ i)).map
    (fun j => (sideScore data agg i j i - sideScore data agg j i i) ^ 2)).sum

/-- Exact-mode divisiveness of one proposal:
`np.sqrt(squared_diffs_sum) / (N - 1)`, with the degenerate `N < 2`
early return producing 0. -/
noncomputable def divisivenessOf [LinearOrder α] [DecidableEq V]
    (data : List (VoterVote α V)) (agg : AggFn α) (i : α) : ℝ :=
  if (vProps data).length < 2 then 0
  else Real.sqrt (squaredDiffsSum data agg i) / ((vProps data).length - 1)

/-- Exact-mode result: the per-proposal table sorted by descending
divisiveness, and its arithmetic mean. -/
noncomputable def divisivenessResult [LinearOrder α] [DecidableEq V]
    (data : List (VoterVote α V)) (agg : AggFn α) : ℝ × List (α × ℝ) :=
  let t := sortScoreDesc ((vProps data).map
    (fun p => (p, divisivenessOf data agg p)))
  (((t.map Prod.snd).sum) / t.length, t)

/-! ## Approximate (voter-anonymous) divisiveness, `divisiveness_simple` -/

/-- Python `max(values) if values else 1` over the global score table. -/
def tableMax (t : List (α × ℝ)) : ℝ :=
  match t.map Prod.snd with
  | [] => 1
  | x :: xs => xs.foldl max x

/-- Python `min(values) if values else 0` over the global score table. -/
def tableMin (t : List (α × ℝ)) : ℝ :=
  match t.map Prod.snd with
  | [] => 0
  | x :: xs => xs.foldl min x

/-- The synthetic weighted sub-table for the population preferring `i`
over `j`: every aggregated row keeps its count except the (j, i) row,
which is zeroed (the row predicate of the source), and zero-count rows
are then dropped. -/
def simpleSubset [LinearOrder α] (pv : List (PairVote α)) (i j : α) :
    List (PairVote α) :=
  (pv.map (fun r =>
    ⟨r.proposal, r.wins_over,
      if (r.proposal = i ∧ r.wins_over = j) ∨
        (r.proposal ≠ j ∨ r.wins_over ≠ i) then r.count else 0⟩)).filter
    (fun r => r.count > 0)

/-- Normalized score of `i` inside one synthetic sub-table: run the
strategy when the sub-table is nonempty, look up the row of `i`, and
min-max rescale it with the global range; each missing case yields 0. -/
noncomputable def simpleSideScore [LinearOrder α] (pv : List (PairVote α))
    (agg : AggFn α) (minS range : ℝ) (i j : α) : ℝ :=
  let sub := simpleSubset pv i j
  if sub = [] then 0
  else
    match (agg sub).filter (fun x => x.1 = i) with
    | [] => 0
    | x :: _ => (x.2 - minS) / range

/-- Approximate-mode squared-difference accumulator for proposal `i`:
rival pairs with no votes in either direction are skipped. -/
noncomputable def simpleSquaredDiffsSum [LinearOrder α]
    (data : List (PairVote α)) (agg : AggFn α) (i : α) : ℝ :=
  let pv := aggregatePairs data
  let gs := agg pv
  let minS := tableMin gs
  let maxS := tableMax gs
  let range := if maxS ≠ minS then maxS - minS else 1
  (((allProposals data).insertionSort (· ≤ ·)).filter (fun j => j ≠ i) |>.map
    (fun j =>
      if pairVotes data i j + pairVotes data j i > 0 then
        (simpleSideScore pv agg minS range i j -
          simpleSideScore pv agg minS range j i) ^ 2
      else 0)).sum

/-- Approximate-mode divisiveness of one proposal. -/
noncomputable def simpleDivisivenessOf [LinearOrder α]
    (data : List (PairVote α)) (agg : AggFn α) (i : α) : ℝ :=
  if ((allProposals data).insertionSort (· ≤ ·)).length < 2 then 0
  else Real.sqrt (simpleSquaredDiffsSum data agg i) /
    (((allProposals data).insertionSort (· ≤ ·)).length - 1)

/-- Approximate-mode result: per-proposal table sorted by descending
divisiveness, plus its mean. -/
noncomputable def simpleDivisivenessResult [LinearOrder α]
    (data : List (PairVote α)) (agg : AggFn α) : ℝ × List (α × ℝ) :=
  let t := sortScoreDesc (((allProposals data).insertionSort (· ≤ ·)).map
    (fun p => (p, simpleDivisivenessOf data agg p)))
  (((t.map Prod.snd).sum) / t.length, t)

/-! ## Strategy registry and the string-method dispatch -/

/-- Keys of the `AGGREGATION_METHODS` registry, in source order. -/
def aggregationMethods : List String :=
  ["borda", "copeland", "ahp", "elo", "winrate"]

/-- The `ValueError` message raised for an unknown method name: it names
the invalid method and lists the valid ones. -/
def methodErrorMsg (m : String) : String :=
  "Unknown method " ++ m ++ ". Available methods: " ++
    "borda, copeland, ahp, elo, winrate"

/-- The strategy a registry key maps to, each at its default
parameters; only reached after the key has been validated. -/
noncomputable def aggOfMethod [LinearOrder α] (m : String) : AggFn α :=
  if m = "copeland" then fun d => ratTable (copeland d)
  else if m = "ahp" then fun d =>
    -- Both divisiveness engines only invoke a strategy on nonempty
    -- sub-tables (the voter-set and subset-length guards), where `ahp`
    -- always returns a table; the empty-table default stands in for
    -- the propagated exception on the unreachable empty input.
    ratTable ((ahp d 100 (1 / 1000000)).toOption.getD [])
  else if m = "elo" then fun d => elo d 1000 32 1
  else if m = "winrate" then fun d => ratTable (winrate d)
  else fun d => ratTable (borda d)

/-- The exact-mode entry point `divisiveness` with a string method:
an unknown name raises `ValueError` before any data processing. -/
noncomputable def divisiveness [LinearOrder α] [DecidableEq V]
    (m : String) (data : List (VoterVote α V)) :
    Except String (ℝ × List (α × ℝ)) :=
  if m ∈ aggregationMethods then
    .ok (divisivenessResult data (aggOfMethod m))
  else .error (methodErrorMsg m)

/-- The approximate-mode entry point `divisiveness_simple` with a string
method: same fail-fast name validation. -/
noncomputable def divisivenessSimple [LinearOrder α] (m : String)
    (data : List (PairVote α)) : Except String (ℝ × List (α × ℝ)) :=
  if m ∈ aggregationMethods then
    .ok (simpleDivisivenessResult data (aggOfMethod m))
  else .error (methodErrorMsg m)

/-! ## Statement-level predicates and concrete data used by the claims -/

/-- The distinct (winner, loser) pairs one voter expressed. -/
def voterPrefs [DecidableEq α] [DecidableEq V] (data : List (VoterVote α V))
    (v : V) : List (α × α) :=
  ((data.filter (fun r => r.voter = v)).map
    (fun r => (r.proposal, r.wins_over))).dedup

/-- The claim-C1 hypothesis: every two voters of the dataset expressed
exactly the same set of directed preferences. -/
def identicalPrefs [DecidableEq α] [DecidableEq V]
    (data : List (VoterVote α V)) : Prop :=
  ∀ v ∈ (data.map VoterVote.voter).dedup,
    ∀ w ∈ (data.map VoterVote.voter).dedup,
      voterPrefs data v ⊆ voterPrefs data w

/-- The end-to-end example dataset of the spec, with A = 0, B = 1,
C = 2: records (A,B,100), (A,C,80), (B,A,40), (B,C,60), (C,A,30),
(C,B,50). -/
def exData : List (PairVote ℕ) :=
  [⟨0, 1, 100⟩, ⟨0, 2, 80⟩, ⟨1, 0, 40⟩, ⟨1, 2, 60⟩, ⟨2, 0, 30⟩, ⟨2, 1, 50⟩]

/-- A one-voter, one-record dataset: voter 0 preferred proposal 0 over
proposal 1 once. -/
def oneVoterData : List (VoterVote ℕ ℕ) :=
  [⟨0, 0, 1, 1⟩]

/-! ## Shared helper lemmas -/

theorem sum_map_add {β : Type} (l : List β) (f g : β → ℚ) :
    (l.map (fun r => f r + g r)).sum = (l.map f).sum + (l.map g).sum := by
  induction l with
  | nil => simp
  | cons a t ih => simp [ih]; ring

theorem sum_map_sub {β : Type} (l : List β) (f g : β → ℚ) :
    (l.map (fun r => f r - g r)).sum = (l.map f).sum - (l.map g).sum := by
  induction l with
  | nil => simp
  | cons a t ih => simp [ih]; ring

theorem sum_map_swap {β γ : Type} (l1 : List β) (l2 : List γ)
    (f : β → γ → ℚ) :
    (l1.map (fun a => (l2.map (f a)).sum)).sum =
      (l2.map (fun b => (l1.map (fun a => f a b)).sum)).sum := by
  induction l1 with
  | nil => simp [List.map_const]
  | cons a t ih => simp [ih, sum_map_add]

theorem sum_map_indicator [DecidableEq α] (l : List α) (a : α)
    (hnd : l.Nodup) (ha : a ∈ l) :
    (l.map (fun p => if p = a then (1 : ℚ) else 0)).sum = 1 := by
  induction l with
  | nil => cases ha
  | cons b t ih =>
    rcases List.mem_cons.mp ha with h | h
    · subst h
      have hnotmem : a ∉ t := (List.nodup_cons.mp hnd).1
      have : (t.map (fun p => if p = a then (1 : ℚ) else 0)).sum = 0 := by
        apply List.sum_eq_zero
        intro x hx
        rcases List.mem_map.mp hx with ⟨p, hp, rfl⟩
        simp only [ite_eq_right_iff]
        intro hpa; exact absurd (hpa ▸ hp) hnotmem
      simp [this]
    · have hba : b ≠ a := by
        rintro rfl; exact (List.nodup_cons.mp hnd).1 h
      simp [hba, ih (List.nodup_cons.mp hnd).2 h]

theorem except_bind_ok {β γ : Type} (a : β) (f : β → Except String γ) :
    Except.bind (Except.ok a : Except String β) f = f a := rfl

theorem except_map_ok {β γ : Type} (f : β → γ) (a : β) :
    Except.map f (Except.ok a : Except String β) = Except.ok (f a) := rfl

theorem sortScoreDesc_perm {β : Type} [LinearOrder β] (t : List (α × β)) :
    (sortScoreDesc t).Perm t :=
  List.perm_insertionSort _ _

theorem sortScoreDesc_sorted {β : Type} [LinearOrder β] (t : List (α × β)) :
    List.Sorted scoreGE (sortScoreDesc t) :=
  List.sorted_insertionSort _ _

/-- Every count of raw rows being non-negative makes every aggregated
count non-negative. -/
theorem pairVotes_nonneg [DecidableEq α] (data : List (PairVote α))
    (h : ∀ r ∈ data, 0 ≤ r.count) (x y : α) : 0 ≤ pairVotes data x y := by
  apply List.sum_nonneg
  intro c hc
  rcases List.mem_map.mp hc with ⟨r, hr, rfl⟩
  exact h r (List.mem_filter.mp hr).1

end Polapy

/-! ## Claims -/

namespace Polapy

/-- C2: on the example records, the Rank-Sum (borda) strategy scores
A = 180, B = 100, C = 80; the Net-Win-Count (copeland) strategy scores
A = +2, B = 0, C = -2; and the Win-Ratio (winrate) strategy scores
A = 0.72. -/
theorem strategies_end_to_end_example :
    scoreOfTable (borda exData) 0 = 180 ∧
    scoreOfTable (borda exData) 1 = 100 ∧
    scoreOfTable (borda exData) 2 = 80 ∧
    scoreOfTable (copeland exData) 0 = 2 ∧
    scoreOfTable (copeland exData) 1 = 0 ∧
    scoreOfTable (copeland exData) 2 = -2 ∧
    scoreOfTable (winrate exData) 0 = 72 / 100 := by
  refine ⟨?_, ?_, ?_, ?_, ?_, ?_, ?_⟩ <;>
    norm_num [scoreOfTable, borda, copeland, winrate, sortScoreDesc,
      List.insertionSort, List.orderedInsert, allProposals, bordaScore,
      copelandScore, copelandUpairs, copelandWinC, copelandLossC,
      winrateScore, winrateWins, winrateTotal, aggregatePairs, pairVotes,
      pairLE, exData, scoreGE]

/-- C9: for every method name outside the registry, both divisiveness
entry points fail with the error naming the invalid method and listing
the valid ones, before any data processing, yielding no partial
result. -/
theorem unknown_method_error {α V : Type} [LinearOrder α] [DecidableEq V]
    (m : String) (hm : m ∉ aggregationMethods)
    (dv : List (VoterVote α V)) (dp : List (PairVote α)) :
    divisiveness m dv = Except.error (methodErrorMsg m) ∧
    divisivenessSimple m dp = Except.error (methodErrorMsg m) := by
  constructor
  · unfold divisiveness; rw [if_neg hm]
  · unfold divisivenessSimple; rw [if_neg hm]

/-- Witness for C9 at the concrete invalid name "banzhaf". -/
theorem unknown_method_error_witness :
    "banzhaf" ∉ aggregationMethods ∧
    (divisiveness "banzhaf" ([] : List (VoterVote ℕ ℕ)) =
      Except.error (methodErrorMsg "banzhaf") ∧
    divisivenessSimple "banzhaf" ([] : List (PairVote ℕ)) =
      Except.error (methodErrorMsg "banzhaf")) :=
  ⟨by decide, unknown_method_error "banzhaf" (by decide) [] []⟩

/-- C5: with non-negative counts every win-rate score lies in [0, 1],
and an alternative with zero total matchup votes scores exactly 0 (the
division is guarded). -/
theorem winrate_bounded {α : Type} [LinearOrder α]
    (data : List (PairVote α)) (h : ∀ r ∈ data, 0 ≤ r.count) (p : α) :
    0 ≤ winrateScore data p ∧ winrateScore data p ≤ 1 ∧
    (winrateTotal data p = 0 → winrateScore data p = 0) := by
  have hagg : ∀ r ∈ aggregatePairs data, 0 ≤ r.count := by
    intro r hr
    rcases List.mem_map.mp hr with ⟨q, _, rfl⟩
    exact pairVotes_nonneg data h q.1 q.2
  have hw : 0 ≤ winrateWins data p := by
    apply List.sum_nonneg
    intro c hc
    rcases List.mem_map.mp hc with ⟨r, hr, rfl⟩
    show 0 ≤ if r.proposal = p then r.count else 0
    split
    · exact hagg r hr
    · exact le_refl 0
  have ht : winrateWins data p ≤ winrateTotal data p := by
    have hdiff : winrateTotal data p - winrateWins data p =
        ((aggregatePairs data).map
          (fun r => if r.wins_over = p then r.count else 0)).sum := by
      unfold winrateTotal winrateWins
      rw [← sum_map_sub]
      congr 1
      apply List.map_congr_left
      intro r _
      ring
    have : 0 ≤ winrateTotal data p - winrateWins data p := by
      rw [hdiff]
      apply List.sum_nonneg
      intro c hc
      rcases List.mem_map.mp hc with ⟨r, hr, rfl⟩
      show 0 ≤ if r.wins_over = p then r.count else 0
      split
      · exact hagg r hr
      · exact le_refl 0
    linarith
  refine ⟨?_, ?_, ?_⟩
  · unfold winrateScore
    split
    · rename_i hpos
      exact div_nonneg hw (le_of_lt hpos)
    · exact le_refl 0
  · unfold winrateScore
    split
    · rename_i hpos
      exact (div_le_one hpos).mpr ht
    · exact zero_le_one
  · intro h0
    unfold winrateScore
    rw [if_neg]
    rw [h0]
    exact lt_irrefl 0

/-- Witness for C5 on the example dataset at p = 0. -/
theorem winrate_bounded_witness :
    (∀ r ∈ exData, 0 ≤ r.count) ∧
    (0 ≤ winrateScore exData 0 ∧ winrateScore exData 0 ≤ 1 ∧
      (winrateTotal exData 0 = 0 → winrateScore exData 0 = 0)) :=
  ⟨by norm_num [exData], winrate_bounded exData (by norm_num [exData]) 0⟩

/-- C10: with non-negative counts, every seeded comparison-matrix cell
is at least 1, so the zero-denominator fallbacks of the ratio pass are
unreachable: the ratio stored at an upper-triangle cell (i, j) is
exactly (1 + votes(i over j)) / (1 + votes(j over i)), and its mirror
cell holds the reciprocal. -/
theorem ahp_matrix_cells {α : Type} [LinearOrder α]
    (data : List (PairVote α)) (h : ∀ r ∈ data, 0 ≤ r.count) :
    (∀ p q, 1 ≤ ahpRawCell data p q) ∧
    (∀ p q, ahpRatio data p q =
      ahpRawCell data p q / ahpRawCell data q p) ∧
    (∀ i j : Fin (ahpProps data).length, i < j →
      ahpMatrix data i j =
        ahpRawCell data ((ahpProps data).get i) ((ahpProps data).get j) /
          ahpRawCell data ((ahpProps data).get j) ((ahpProps data).get i) ∧
      ahpMatrix data j i =
        ahpRawCell data ((ahpProps data).get j) ((ahpProps data).get i) /
          ahpRawCell data ((ahpProps data).get i) ((ahpProps data).get j)) := by
  have hcell : ∀ p q, 1 ≤ ahpRawCell data p q := by
    intro p q
    have := pairVotes_nonneg data h p q
    unfold ahpRawCell
    linarith
  have hcellpos : ∀ p q, (0 : ℚ) < ahpRawCell data p q := by
    intro p q; linarith [hcell p q]
  have hratio : ∀ p q, ahpRatio data p q =
      ahpRawCell data p q / ahpRawCell data q p := by
    intro p q
    unfold ahpRatio
    rw [if_pos (hcellpos q p)]
  have hratiopos : ∀ p q, (0 : ℚ) < ahpRatio data p q := by
    intro p q
    rw [hratio]
    exact div_pos (hcellpos p q) (hcellpos q p)
  refine ⟨hcell, hratio, ?_⟩
  intro i j hij
  constructor
  · unfold ahpMatrix
    rw [if_neg (Fin.ne_of_lt hij), if_pos hij, hratio]
  · unfold ahpMatrix
    rw [if_neg (Fin.ne_of_gt hij), if_neg (not_lt_of_lt hij),
      if_pos (hratiopos _ _), hratio, one_div_div]

/-- Witness for C10 on the example dataset. -/
theorem ahp_matrix_cells_witness :
    (∀ r ∈ exData, 0 ≤ r.count) ∧
    ((∀ p q, 1 ≤ ahpRawCell exData p q) ∧
    (∀ p q, ahpRatio exData p q =
      ahpRawCell exData p q / ahpRawCell exData q p) ∧
    (∀ i j : Fin (ahpProps exData).length, i < j →
      ahpMatrix exData i j =
        ahpRawCell exData ((ahpProps exData).get i) ((ahpProps exData).get j) /
          ahpRawCell exData ((ahpProps exData).get j) ((ahpProps exData).get i) ∧
      ahpMatrix exData j i =
        ahpRawCell exData ((ahpProps exData).get j) ((ahpProps exData).get i) /
          ahpRawCell exData ((ahpProps exData).get i) ((ahpProps exData).get j))) :=
  ⟨by norm_num [exData], ahp_matrix_cells exData (by norm_num [exData])⟩

/-- Keys of a table built by pairing each universe member with its
score, after the descending sort: a permutation of the universe. -/
theorem mapFst_sortScoreDesc_perm {β : Type} [LinearOrder β]
    (l : List α) (f : α → β) :
    ((sortScoreDesc (l.map (fun p => (p, f p)))).map Prod.fst).Perm l := by
  have h1 := (sortScoreDesc_perm (l.map (fun p => (p, f p)))).map Prod.fst
  rw [List.map_map] at h1
  simpa [Function.comp_def] using h1

/-- A nonempty array makes the convergence check of the power method
return a value instead of raising. -/
theorem maxAbsDiff_ok {n : ℕ} (hn : n ≠ 0) (v w : Fin n → ℚ) :
    ∃ d, maxAbsDiff v w = Except.ok d := by
  unfold maxAbsDiff
  rcases hl : (List.finRange n).map (fun i => |v i - w i|) with _ | ⟨x, xs⟩
  · exfalso
    have hlen := congrArg List.length hl
    simp [List.length_finRange] at hlen
    exact hn hlen
  · exact ⟨xs.foldl max x, rfl⟩

/-- For a nonempty universe the power loop never raises. -/
theorem powerIter_ok {n : ℕ} (hn : n ≠ 0) (M : Fin n → Fin n → ℚ)
    (tol : ℚ) (k : ℕ) (w : Fin n → ℚ) :
    ∃ w2, powerIter M tol k w = Except.ok w2 := by
  induction k generalizing w with
  | zero => exact ⟨w, rfl⟩
  | succ k ih =>
    obtain ⟨d, hd⟩ := maxAbsDiff_ok hn (powerStep M w) w
    rw [powerIter, hd, except_bind_ok]
    by_cases hlt : d < tol
    · rw [if_pos hlt]
      exact ⟨w, rfl⟩
    · rw [if_neg hlt]
      exact ih (powerStep M w)

/-- A nonempty dataset has a nonempty sorted proposal universe. -/
theorem ahpProps_length_pos {α : Type} [LinearOrder α]
    (data : List (PairVote α)) (hne : data ≠ []) :
    0 < (ahpProps data).length := by
  rcases data with _ | ⟨r, t⟩
  · exact absurd rfl hne
  · have hmem : r.proposal ∈ allProposals (r :: t) :=
      List.mem_dedup.mpr (List.mem_append.mpr
        (Or.inl (List.mem_map_of_mem PairVote.proposal (List.mem_cons_self r t))))
    have : r.proposal ∈ ahpProps (r :: t) :=
      ((List.perm_insertionSort (· ≤ ·) (allProposals (r :: t))).mem_iff).mpr hmem
    exact List.length_pos.mpr (List.ne_nil_of_mem this)

/-- When `ahp` returns a table, the table is the descending sort of the
sorted universe paired with some weight vector the power loop
returned. -/
theorem ahp_ok_elim {α : Type} [LinearOrder α] (data : List (PairVote α))
    (maxIt : ℕ) (tol : ℚ) (t : List (α × ℚ))
    (hok : ahp data maxIt tol = Except.ok t) :
    ∃ w2, ahpWeights data maxIt tol = Except.ok w2 ∧
      t = sortScoreDesc (List.ofFn (fun i : Fin (ahpProps data).length =>
        ((ahpProps data).get i, w2 i))) := by
  unfold ahp at hok
  cases hw : ahpWeights data maxIt tol with
  | error e =>
    rw [hw] at hok
    exact absurd hok (by simp [Except.map])
  | ok w2 =>
    rw [hw, except_map_ok] at hok
    exact ⟨w2, rfl, (Except.ok.inj hok).symm⟩

/-- Well-formedness of the five strategies' outputs (the provable part
of claim C3): for every dataset and parameters, borda, copeland,
winrate and elo return a table whose key column is exactly the
alternative universe (one row per alternative, no duplicates, no
omissions, alternatives that only appear as losers included), with
rows sorted in descending score order; ahp returns such a table on
every nonempty dataset, and whenever it returns a table at all that
table is well-formed — but on the empty universe it raises instead
(see the C3 code-bug theorem below). -/
theorem score_tables_wellformed {α : Type} [LinearOrder α]
    (data : List (PairVote α)) (base k : ℝ) (iters maxIt : ℕ) (tol : ℚ) :
    (allProposals data).Nodup ∧
    (((borda data).map Prod.fst).Perm (allProposals data) ∧
      List.Sorted scoreGE (borda data)) ∧
    (((copeland data).map Prod.fst).Perm (allProposals data) ∧
      List.Sorted scoreGE (copeland data)) ∧
    (((winrate data).map Prod.fst).Perm (allProposals data) ∧
      List.Sorted scoreGE (winrate data)) ∧
    (((elo data base k iters).map Prod.fst).Perm (allProposals data) ∧
      List.Sorted scoreGE (elo data base k iters)) ∧
    (data ≠ [] → ∃ t, ahp data maxIt tol = Except.ok t) ∧
    (∀ t, ahp data maxIt tol = Except.ok t →
      (t.map Prod.fst).Perm (allProposals data) ∧ List.Sorted scoreGE t) := by
  refine ⟨List.nodup_dedup _, ⟨mapFst_sortScoreDesc_perm _ _,
    sortScoreDesc_sorted _⟩, ⟨mapFst_sortScoreDesc_perm _ _,
    sortScoreDesc_sorted _⟩, ⟨mapFst_sortScoreDesc_perm _ _,
    sortScoreDesc_sorted _⟩, ⟨mapFst_sortScoreDesc_perm _ _,
    sortScoreDesc_sorted _⟩, ?_, ?_⟩
  · intro hne
    have hn : 0 < (ahpProps data).length := ahpProps_length_pos data hne
    obtain ⟨w2, hw2⟩ := powerIter_ok (Nat.pos_iff_ne_zero.mp hn)
      (ahpMatrix data) tol maxIt
      (fun _ => 1 / ((ahpProps data).length : ℚ))
    refine ⟨sortScoreDesc (List.ofFn (fun i : Fin (ahpProps data).length =>
      ((ahpProps data).get i, w2 i))), ?_⟩
    unfold ahp ahpWeights
    rw [hw2, except_map_ok]
  · intro t hok
    obtain ⟨w2, _, rfl⟩ := ahp_ok_elim data maxIt tol t hok
    refine ⟨?_, sortScoreDesc_sorted _⟩
    have h1 := (sortScoreDesc_perm (List.ofFn
      (fun i : Fin (ahpProps data).length =>
        ((ahpProps data).get i, w2 i)))).map Prod.fst
    have h2 : (List.ofFn (fun i : Fin (ahpProps data).length =>
        ((ahpProps data).get i, w2 i))).map Prod.fst = ahpProps data := by
      rw [List.map_ofFn]
      exact List.ofFn_get (ahpProps data)
    refine (h1.trans ?_)
    rw [h2]
    exact List.perm_insertionSort _ _

/-- C3 (code bug): on the empty dataset the AHP strategy fails to
return a Score Table at all: the first power-method iteration applies
np.max to a zero-size array, raising ValueError, even though the
spec's degenerate-input rule (fewer than 2 alternatives yields a
zero/empty result rather than failing) and the function's own
docstring promise a returned table.  The other four strategies return
well-formed tables on every dataset (see the preceding theorem). -/
theorem ahp_empty_raises :
    ahp ([] : List (PairVote ℕ)) 100 (1 / 1000000) =
      Except.error npMaxErr := rfl

/-- C8: building the Aggregated Pair Table is invariant under
reordering of the input records, and the empty input yields the empty
table. -/
theorem aggregatePairs_order_invariant {α : Type} [LinearOrder α]
    (l1 l2 : List (PairVote α)) (h : l1.Perm l2) :
    aggregatePairs l1 = aggregatePairs l2 ∧
    aggregatePairs ([] : List (PairVote α)) = [] := by
  constructor
  · have hpv : pairVotes l1 = pairVotes l2 := by
      funext x y
      exact ((h.filter _).map PairVote.count).sum_eq
    have hkeys : ((l1.map (fun r => (r.proposal, r.wins_over))).dedup.insertionSort
          pairLE) =
        ((l2.map (fun r => (r.proposal, r.wins_over))).dedup.insertionSort
          pairLE) := by
      refine List.eq_of_perm_of_sorted ?_ (List.sorted_insertionSort _ _)
        (List.sorted_insertionSort _ _)
      exact (List.perm_insertionSort _ _).trans
        (((h.map _).dedup).trans (List.perm_insertionSort _ _).symm)
    unfold aggregatePairs
    rw [hkeys, hpv]
  · rfl

/-- Witness for C8: a concrete two-record list and its reversal. -/
theorem aggregatePairs_order_invariant_witness :
    ([⟨0, 1, 2⟩, ⟨1, 0, 3⟩] : List (PairVote ℕ)).Perm
      [⟨1, 0, 3⟩, ⟨0, 1, 2⟩] ∧
    (aggregatePairs ([⟨0, 1, 2⟩, ⟨1, 0, 3⟩] : List (PairVote ℕ)) =
      aggregatePairs [⟨1, 0, 3⟩, ⟨0, 1, 2⟩] ∧
    aggregatePairs ([] : List (PairVote ℕ)) = []) :=
  ⟨List.Perm.swap (⟨1, 0, 3⟩ : PairVote ℕ) (⟨0, 1, 2⟩ : PairVote ℕ) [],
    aggregatePairs_order_invariant _ _
      (List.Perm.swap (⟨1, 0, 3⟩ : PairVote ℕ) (⟨0, 1, 2⟩ : PairVote ℕ) [])⟩

/-- Rows of the aggregated table only mention universe members. -/
theorem mem_allProposals_of_mem_aggregatePairs {α : Type} [LinearOrder α]
    (data : List (PairVote α)) (r : PairVote α)
    (hr : r ∈ aggregatePairs data) :
    r.proposal ∈ allProposals data ∧ r.wins_over ∈ allProposals data := by
  rcases List.mem_map.mp hr with ⟨p, hp, rfl⟩
  have hp2 : p ∈ (data.map (fun r => (r.proposal, r.wins_over))).dedup :=
    ((List.perm_insertionSort pairLE _).mem_iff).mp hp
  rcases List.mem_map.mp (List.mem_dedup.mp hp2) with ⟨r2, hr2, rfl⟩
  have h1 : r2.proposal ∈ allProposals data :=
    List.mem_dedup.mpr (List.mem_append.mpr
      (Or.inl (List.mem_map_of_mem PairVote.proposal hr2)))
  have h2 : r2.wins_over ∈ allProposals data :=
    List.mem_dedup.mpr (List.mem_append.mpr
      (Or.inr (List.mem_map_of_mem PairVote.wins_over hr2)))
  exact ⟨h1, h2⟩

/-- Both members of every examined unordered pair are in the
universe. -/
theorem copelandUpairs_mem {α : Type} [LinearOrder α]
    (data : List (PairVote α)) {q : α × α} (hq : q ∈ copelandUpairs data) :
    q.1 ∈ allProposals data ∧ q.2 ∈ allProposals data := by
  rcases List.mem_map.mp (List.mem_dedup.mp hq) with ⟨r, hr, rfl⟩
  have h := mem_allProposals_of_mem_aggregatePairs data r hr
  by_cases hle : r.proposal ≤ r.wins_over
  · simp only [if_pos hle]
    exact ⟨h.1, h.2⟩
  · simp only [if_neg hle]
    exact ⟨h.2, h.1⟩

/-- One examined unordered pair contributes net 0 to the total score
when its two directions are not exactly tied (and also when the pair is
degenerate, in which case both branches are skipped entirely). -/
theorem copeland_pair_cancel {α : Type} [LinearOrder α]
    (data : List (PairVote α))
    (hnt : ∀ a ∈ allProposals data, ∀ b ∈ allProposals data, a ≠ b →
      pairVotes data a b ≠ pairVotes data b a)
    (q : α × α) (hq : q ∈ copelandUpairs data) :
    ((allProposals data).map
      (fun p => copelandWinC data q p - copelandLossC data q p)).sum = 0 := by
  have hmem := copelandUpairs_mem data hq
  by_cases heq : q.1 = q.2
  · have h12 : ¬ pairVotes data q.1 q.2 > pairVotes data q.2 q.1 := by
      rw [heq]; exact lt_irrefl _
    have h21 : ¬ pairVotes data q.2 q.1 > pairVotes data q.1 q.2 := by
      rw [heq]; exact lt_irrefl _
    apply List.sum_eq_zero
    intro x hx
    rcases List.mem_map.mp hx with ⟨p, _, rfl⟩
    show copelandWinC data q p - copelandLossC data q p = 0
    unfold copelandWinC copelandLossC
    rw [if_neg h12, if_neg h21, if_neg h12, if_neg h21]
    ring
  · have hne := hnt q.1 hmem.1 q.2 hmem.2 heq
    rcases lt_or_gt_of_ne hne with hlt | hgt
    · have h12 : ¬ pairVotes data q.1 q.2 > pairVotes data q.2 q.1 :=
        not_lt_of_lt hlt
      have h21 : pairVotes data q.2 q.1 > pairVotes data q.1 q.2 := hlt
      have hw : ∀ p, copelandWinC data q p = if p = q.2 then 1 else 0 := by
        intro p; unfold copelandWinC; rw [if_neg h12, if_pos h21]
      have hl : ∀ p, copelandLossC data q p = if p = q.1 then 1 else 0 := by
        intro p; unfold copelandLossC; rw [if_neg h12, if_pos h21]
      calc ((allProposals data).map
            (fun p => copelandWinC data q p - copelandLossC data q p)).sum
          = ((allProposals data).map
            (fun p => (if p = q.2 then (1 : ℚ) else 0) -
              (if p = q.1 then (1 : ℚ) else 0))).sum := by
            apply congrArg
            apply List.map_congr_left
            intro p _
            rw [hw p, hl p]
        _ = 0 := by
            have hnd : (allProposals data).Nodup := List.nodup_dedup _
            rw [sum_map_sub, sum_map_indicator _ _ hnd hmem.2,
              sum_map_indicator _ _ hnd hmem.1]
            ring
    · have h12 : pairVotes data q.1 q.2 > pairVotes data q.2 q.1 := hgt
      have hw : ∀ p, copelandWinC data q p = if p = q.1 then 1 else 0 := by
        intro p; unfold copelandWinC; rw [if_pos h12]
      have hl : ∀ p, copelandLossC data q p = if p = q.2 then 1 else 0 := by
        intro p; unfold copelandLossC; rw [if_pos h12]
      calc ((allProposals data).map
            (fun p => copelandWinC data q p - copelandLossC data q p)).sum
          = ((allProposals data).map
            (fun p => (if p = q.1 then (1 : ℚ) else 0) -
              (if p = q.2 then (1 : ℚ) else 0))).sum := by
            apply congrArg
            apply List.map_congr_left
            intro p _
            rw [hw p, hl p]
        _ = 0 := by
            have hnd : (allProposals data).Nodup := List.nodup_dedup _
            rw [sum_map_sub, sum_map_indicator _ _ hnd hmem.1,
              sum_map_indicator _ _ hnd hmem.2]
            ring

/-- C4: when no unordered pair of universe members is exactly tied, the
Copeland scores sum to 0 across the whole table; the loop examines each
unordered pair exactly once (the examined pair list has no duplicates);
and duplicate directed rows for a pair are pre-summed: splitting a
directed row into two rows with the same total leaves every score
unchanged. -/
theorem copeland_sum_zero {α : Type} [LinearOrder α]
    (data : List (PairVote α))
    (hnt : ∀ a ∈ allProposals data, ∀ b ∈ allProposals data, a ≠ b →
      pairVotes data a b ≠ pairVotes data b a) :
    ((copeland data).map Prod.snd).sum = 0 ∧
    (copelandUpairs data).Nodup ∧
    (∀ (p q : α) (c1 c2 : ℚ) (rest : List (PairVote α)) (x : α),
      copelandScore (⟨p, q, c1⟩ :: ⟨p, q, c2⟩ :: rest) x =
      copelandScore (⟨p, q, c1 + c2⟩ :: rest) x) := by
  refine ⟨?_, List.nodup_dedup _, ?_⟩
  · have h1 : ((copeland data).map Prod.snd).sum =
        ((allProposals data).map (fun p => copelandScore data p)).sum := by
      have hperm := (sortScoreDesc_perm ((allProposals data).map
        (fun p => (p, copelandScore data p)))).map Prod.snd
      have := hperm.sum_eq
      rw [List.map_map] at this
      simpa [Function.comp_def, copeland] using this
    rw [h1]
    have h2 : ((allProposals data).map (fun p => copelandScore data p)).sum =
        ((allProposals data).map (fun p => ((copelandUpairs data).map
          (fun q => copelandWinC data q p - copelandLossC data q p)).sum)).sum := by
      apply congrArg
      apply List.map_congr_left
      intro p _
      unfold copelandScore
      rw [sum_map_sub]
    rw [h2, sum_map_swap]
    apply List.sum_eq_zero
    intro x hx
    rcases List.mem_map.mp hx with ⟨q, hq, rfl⟩
    exact copeland_pair_cancel data hnt q hq
  · intro p q c1 c2 rest x
    have hpv : pairVotes (⟨p, q, c1⟩ :: ⟨p, q, c2⟩ :: rest) =
        pairVotes (⟨p, q, c1 + c2⟩ :: rest) := by
      funext a b
      unfold pairVotes
      by_cases hab : p = a ∧ q = b
      · simp [List.filter_cons, hab, add_assoc]
      · simp [List.filter_cons, hab]
    have hkeys : ((⟨p, q, c1⟩ :: ⟨p, q, c2⟩ :: rest : List (PairVote α)).map
          (fun r => (r.proposal, r.wins_over))).dedup =
        ((⟨p, q, c1 + c2⟩ :: rest : List (PairVote α)).map
          (fun r => (r.proposal, r.wins_over))).dedup := by
      simp only [List.map_cons]
      rw [List.dedup_cons_of_mem (List.mem_cons_self _ _)]
    have haggr : aggregatePairs (⟨p, q, c1⟩ :: ⟨p, q, c2⟩ :: rest) =
        aggregatePairs (⟨p, q, c1 + c2⟩ :: rest) := by
      unfold aggregatePairs
      rw [hkeys, hpv]
    have hup : copelandUpairs (⟨p, q, c1⟩ :: ⟨p, q, c2⟩ :: rest) =
        copelandUpairs (⟨p, q, c1 + c2⟩ :: rest) := by
      unfold copelandUpairs
      rw [haggr]
    have hwc : copelandWinC (α := α) (⟨p, q, c1⟩ :: ⟨p, q, c2⟩ :: rest) =
        copelandWinC (⟨p, q, c1 + c2⟩ :: rest) := by
      funext r s
      unfold copelandWinC
      rw [hpv]
    have hlc : copelandLossC (α := α) (⟨p, q, c1⟩ :: ⟨p, q, c2⟩ :: rest) =
        copelandLossC (⟨p, q, c1 + c2⟩ :: rest) := by
      funext r s
      unfold copelandLossC
      rw [hpv]
    unfold copelandScore
    rw [hup, hwc, hlc]

/-- Witness for C4 on the example dataset (a complete tournament with
no ties). -/
theorem copeland_sum_zero_witness :
    (∀ a ∈ allProposals exData, ∀ b ∈ allProposals exData, a ≠ b →
      pairVotes exData a b ≠ pairVotes exData b a) ∧
    (((copeland exData).map Prod.snd).sum = 0 ∧
    (copelandUpairs exData).Nodup ∧
    (∀ (p q : ℕ) (c1 c2 : ℚ) (rest : List (PairVote ℕ)) (x : ℕ),
      copelandScore (⟨p, q, c1⟩ :: ⟨p, q, c2⟩ :: rest) x =
      copelandScore (⟨p, q, c1 + c2⟩ :: rest) x)) :=
  ⟨by norm_num [allProposals, pairVotes, exData],
    copeland_sum_zero exData (by norm_num [allProposals, pairVotes, exData])⟩

/-- With non-negative counts every cell of the reciprocal comparison
matrix is positive. -/
theorem ahpMatrix_pos {α : Type} [LinearOrder α] (data : List (PairVote α))
    (h : ∀ r ∈ data, 0 ≤ r.count)
    (i j : Fin (ahpProps data).length) : 0 < ahpMatrix data i j := by
  have hcellpos : ∀ p q, (0 : ℚ) < ahpRawCell data p q := by
    intro p q
    have := pairVotes_nonneg data h p q
    unfold ahpRawCell
    linarith
  have hratiopos : ∀ p q, (0 : ℚ) < ahpRatio data p q := by
    intro p q
    unfold ahpRatio
    rw [if_pos (hcellpos q p)]
    exact div_pos (hcellpos p q) (hcellpos q p)
  unfold ahpMatrix
  split
  · exact one_pos
  split
  · exact hratiopos _ _
  split
  · exact div_pos one_pos (hratiopos _ _)
  · exact one_pos

/-- For a nonempty universe the power loop returns a weight vector,
and the loop preserves positivity and the unit sum of that vector. -/
theorem powerIter_ok_invariant {n : ℕ} (hn : 0 < n) (M : Fin n → Fin n → ℚ)
    (hM : ∀ i j, 0 < M i j) (tol : ℚ) (k : ℕ) (w : Fin n → ℚ)
    (hw : ∀ i, 0 < w i) (hs : ∑ i, w i = 1) :
    ∃ w2, powerIter M tol k w = Except.ok w2 ∧
      (∀ i, 0 < w2 i) ∧ ∑ i, w2 i = 1 := by
  haveI : Nonempty (Fin n) := ⟨⟨0, hn⟩⟩
  induction k generalizing w with
  | zero => exact ⟨w, rfl, hw, hs⟩
  | succ k ih =>
    have hv : ∀ i, 0 < ∑ j, M i j * w j := by
      intro i
      exact Finset.sum_pos (fun j _ => mul_pos (hM i j) (hw j))
        Finset.univ_nonempty
    have hvs : 0 < ∑ i2, ∑ j, M i2 j * w j :=
      Finset.sum_pos (fun i _ => hv i) Finset.univ_nonempty
    have hnwpos : ∀ i, 0 < powerStep M w i := by
      intro i
      exact div_pos (hv i) hvs
    have hnwsum : ∑ i, powerStep M w i = 1 := by
      unfold powerStep
      rw [← Finset.sum_div]
      exact div_self (ne_of_gt hvs)
    obtain ⟨d, hd⟩ := maxAbsDiff_ok (Nat.pos_iff_ne_zero.mp hn)
      (powerStep M w) w
    rw [powerIter, hd, except_bind_ok]
    by_cases hlt : d < tol
    · rw [if_pos hlt]
      exact ⟨w, rfl, hw, hs⟩
    · rw [if_neg hlt]
      exact ih (powerStep M w) hnwpos hnwsum

/-- The uniform start vector is positive and sums to 1 when the
universe is nonempty. -/
theorem uniform_start_invariant {n : ℕ} (hn : 0 < n) :
    (∀ _i : Fin n, 0 < (1 / (n : ℚ))) ∧
      ∑ _i : Fin n, (1 / (n : ℚ)) = 1 := by
  have hnq : (0 : ℚ) < (n : ℚ) := by exact_mod_cast hn
  constructor
  · intro _
    exact div_pos one_pos hnq
  · rw [Finset.sum_const, Finset.card_univ, Fintype.card_fin, nsmul_eq_mul,
      mul_one_div]
    exact div_self (ne_of_gt hnq)

/-- C6 counterexample: on the empty dataset the program raises the
numpy ValueError inside the first power-method iteration instead of
returning a score vector, so no score vector summing to 1 within the
default tolerance is returned for this input. -/
theorem ahp_sum_empty_counterexample :
    ahp ([] : List (PairVote ℕ)) 100 (1 / 1000000) =
      Except.error npMaxErr ∧
    ¬ ∃ t : List (ℕ × ℚ),
      ahp ([] : List (PairVote ℕ)) 100 (1 / 1000000) = Except.ok t ∧
      |(t.map Prod.snd).sum - 1| ≤ 1 / 1000000 := by
  have h : ahp ([] : List (PairVote ℕ)) 100 (1 / 1000000) =
      Except.error npMaxErr := rfl
  refine ⟨h, ?_⟩
  rintro ⟨t, ht, -⟩
  rw [h] at ht
  simp at ht

/-- The power method fixes the uniform vector when the matrix is all
ones (each multiplication reproduces the uniform vector exactly). -/
theorem powerIter_ones_fix {n : ℕ} (tol : ℚ) (k : ℕ) (hn : n ≠ 0) :
    powerIter (n := n) (fun _ _ => 1) tol k (fun _ => 1 / (n : ℚ)) =
      Except.ok (fun _ => 1 / (n : ℚ)) := by
  induction k with
  | zero => rfl
  | succ k ih =>
    have hstep : powerStep (n := n) (fun _ _ => 1) (fun _ => 1 / (n : ℚ)) =
        (fun _ => 1 / (n : ℚ)) := by
      funext i
      unfold powerStep
      have hpos : 0 < n := i.pos
      have hnq : (0 : ℚ) < (n : ℚ) := by exact_mod_cast hpos
      have hrow : ∑ j : Fin n, (1 : ℚ) * (1 / (n : ℚ)) = 1 := by
        rw [Finset.sum_const, Finset.card_univ, Fintype.card_fin,
          nsmul_eq_mul, one_mul, mul_one_div]
        exact div_self (ne_of_gt hnq)
      rw [hrow]
      have htot : ∑ i2 : Fin n, ∑ j : Fin n, (1 : ℚ) * (1 / (n : ℚ)) =
          (n : ℚ) := by
        rw [Finset.sum_congr rfl (fun i2 _ => hrow), Finset.sum_const,
          Finset.card_univ, Fintype.card_fin, nsmul_eq_mul, mul_one]
      rw [htot]
    obtain ⟨d, hd⟩ := maxAbsDiff_ok hn
      (powerStep (n := n) (fun _ _ => 1) (fun _ => 1 / (n : ℚ)))
      (fun _ => 1 / (n : ℚ))
    rw [powerIter, hd, except_bind_ok, hstep]
    by_cases hlt : d < tol
    · rw [if_pos hlt]
    · rw [if_neg hlt]
      exact ih

/-- With non-negative counts and a fully symmetric vote table, the
reciprocal comparison matrix is the all-ones matrix. -/
theorem ahpMatrix_symmetric_ones {α : Type} [LinearOrder α]
    (data : List (PairVote α)) (h0 : ∀ r ∈ data, 0 ≤ r.count)
    (hsym : ∀ p ∈ ahpProps data, ∀ q ∈ ahpProps data,
      pairVotes data p q = pairVotes data q p) :
    ahpMatrix data = fun _ _ => 1 := by
  have hcellpos : ∀ p q, (0 : ℚ) < ahpRawCell data p q := by
    intro p q
    have := pairVotes_nonneg data h0 p q
    unfold ahpRawCell
    linarith
  have hratio1 : ∀ p ∈ ahpProps data, ∀ q ∈ ahpProps data,
      ahpRatio data p q = 1 := by
    intro p hp q hq
    unfold ahpRatio
    rw [if_pos (hcellpos q p)]
    have hcc : ahpRawCell data p q = ahpRawCell data q p := by
      unfold ahpRawCell
      rw [hsym p hp q hq]
    rw [hcc]
    exact div_self (ne_of_gt (hcellpos q p))
  funext i j
  unfold ahpMatrix
  have hi : (ahpProps data).get i ∈ ahpProps data := List.get_mem _ _ _
  have hj : (ahpProps data).get j ∈ ahpProps data := List.get_mem _ _ _
  split
  · rfl
  split
  · exact hratio1 _ hi _ hj
  · rw [hratio1 _ hj _ hi]
    norm_num

/-- C6 (amended): with non-negative counts, on every nonempty dataset
the AHP strategy returns a score vector summing to exactly 1, and on
every fully symmetric dataset every returned table gives all
alternatives equal scores.  On the empty dataset the claim fails: the
program raises inside the power loop and returns no vector at all (the
counterexample above). -/
theorem ahp_sum_one_and_symmetric {α : Type} [LinearOrder α]
    (data : List (PairVote α)) (maxIt : ℕ) (tol : ℚ)
    (h0 : ∀ r ∈ data, 0 ≤ r.count) :
    (data ≠ [] → ∃ t, ahp data maxIt tol = Except.ok t ∧
      (t.map Prod.snd).sum = 1) ∧
    ((∀ p ∈ ahpProps data, ∀ q ∈ ahpProps data,
        pairVotes data p q = pairVotes data q p) →
      ∀ t, ahp data maxIt tol = Except.ok t →
        ∀ x ∈ t, ∀ y ∈ t, x.2 = y.2) := by
  constructor
  · intro hne
    have hn : 0 < (ahpProps data).length := ahpProps_length_pos data hne
    have hstart := uniform_start_invariant (n := (ahpProps data).length) hn
    obtain ⟨w2, hok, _, hsum2⟩ := powerIter_ok_invariant hn (ahpMatrix data)
      (ahpMatrix_pos data h0) tol maxIt _ hstart.1 hstart.2
    refine ⟨sortScoreDesc (List.ofFn
      (fun i : Fin (ahpProps data).length =>
        ((ahpProps data).get i, w2 i))), ?_, ?_⟩
    · unfold ahp ahpWeights
      rw [hok, except_map_ok]
    · have hperm := ((sortScoreDesc_perm (List.ofFn
        (fun i : Fin (ahpProps data).length =>
          ((ahpProps data).get i, w2 i)))).map Prod.snd).sum_eq
      rw [List.map_ofFn] at hperm
      calc ((sortScoreDesc (List.ofFn
            (fun i : Fin (ahpProps data).length =>
              ((ahpProps data).get i, w2 i)))).map Prod.snd).sum
          = (List.ofFn (Prod.snd ∘ fun i : Fin (ahpProps data).length =>
              ((ahpProps data).get i, w2 i))).sum := hperm
        _ = ∑ i, w2 i := by
            rw [List.sum_ofFn]
            rfl
        _ = 1 := hsum2
  · intro hsym t hok x hx y hy
    obtain ⟨w2, hw2, rfl⟩ := ahp_ok_elim data maxIt tol t hok
    rcases Nat.eq_zero_or_pos (ahpProps data).length with hn0 | hpos
    · exfalso
      have hlen : (sortScoreDesc (List.ofFn
          (fun i : Fin (ahpProps data).length =>
            ((ahpProps data).get i, w2 i)))).length =
          (ahpProps data).length := by
        rw [(sortScoreDesc_perm _).length_eq, List.length_ofFn]
      have hnil : sortScoreDesc (List.ofFn
          (fun i : Fin (ahpProps data).length =>
            ((ahpProps data).get i, w2 i))) = [] :=
        List.length_eq_zero.mp (by rw [hlen, hn0])
      rw [hnil] at hx
      exact absurd hx (List.not_mem_nil x)
    · have hM := ahpMatrix_symmetric_ones data h0 hsym
      unfold ahpWeights at hw2
      rw [hM, powerIter_ones_fix tol maxIt (Nat.pos_iff_ne_zero.mp hpos)]
        at hw2
      have hw2eq : w2 = fun _ => 1 / ((ahpProps data).length : ℚ) :=
        (Except.ok.inj hw2).symm
      have hval : ∀ z ∈ sortScoreDesc (List.ofFn
          (fun i : Fin (ahpProps data).length =>
            ((ahpProps data).get i, w2 i))),
          z.2 = 1 / ((ahpProps data).length : ℚ) := by
        intro z hz
        have hz2 : z ∈ List.ofFn (fun i : Fin (ahpProps data).length =>
            ((ahpProps data).get i, w2 i)) :=
          ((sortScoreDesc_perm _).mem_iff).mp hz
        rcases Set.mem_range.mp ((List.mem_ofFn _ _).mp hz2) with ⟨i, hi⟩
        rw [← hi, hw2eq]
      rw [hval x hx, hval y hy]

/-- Witness for C6 on a concrete nonempty, fully symmetric dataset. -/
theorem ahp_sum_one_and_symmetric_witness :
    (∀ r ∈ ([⟨0, 1, 2⟩, ⟨1, 0, 2⟩] : List (PairVote ℕ)), 0 ≤ r.count) ∧
    ([⟨0, 1, 2⟩, ⟨1, 0, 2⟩] : List (PairVote ℕ)) ≠ [] ∧
    (∀ p ∈ ahpProps ([⟨0, 1, 2⟩, ⟨1, 0, 2⟩] : List (PairVote ℕ)),
      ∀ q ∈ ahpProps ([⟨0, 1, 2⟩, ⟨1, 0, 2⟩] : List (PairVote ℕ)),
        pairVotes [⟨0, 1, 2⟩, ⟨1, 0, 2⟩] p q =
          pairVotes [⟨0, 1, 2⟩, ⟨1, 0, 2⟩] q p) ∧
    (∃ t, ahp ([⟨0, 1, 2⟩, ⟨1, 0, 2⟩] : List (PairVote ℕ)) 100
        (1 / 1000000) = Except.ok t ∧
      (t.map Prod.snd).sum = 1 ∧
      ∀ x ∈ t, ∀ y ∈ t, x.2 = y.2) := by
  have h0 : ∀ r ∈ ([⟨0, 1, 2⟩, ⟨1, 0, 2⟩] : List (PairVote ℕ)),
      0 ≤ r.count := by norm_num
  have hne : ([⟨0, 1, 2⟩, ⟨1, 0, 2⟩] : List (PairVote ℕ)) ≠ [] := by simp
  have hsym : ∀ p ∈ ahpProps ([⟨0, 1, 2⟩, ⟨1, 0, 2⟩] : List (PairVote ℕ)),
      ∀ q ∈ ahpProps ([⟨0, 1, 2⟩, ⟨1, 0, 2⟩] : List (PairVote ℕ)),
        pairVotes [⟨0, 1, 2⟩, ⟨1, 0, 2⟩] p q =
          pairVotes [⟨0, 1, 2⟩, ⟨1, 0, 2⟩] q p := by
    norm_num [ahpProps, allProposals, pairVotes, List.insertionSort,
      List.orderedInsert]
  have h := ahp_sum_one_and_symmetric ([⟨0, 1, 2⟩, ⟨1, 0, 2⟩] :
    List (PairVote ℕ)) 100 (1 / 1000000) h0
  obtain ⟨t, hok, hsum⟩ := h.1 hne
  exact ⟨h0, hne, hsym, t, hok, hsum, h.2 hsym t hok⟩

/-- C1 counterexample: in `oneVoterData` every voter (there is one) has
identical preferences, yet the exact-mode divisiveness of proposal 0
under the default borda strategy is 1, not 0: the 0-over-1 side is the
whole electorate and scores 1 while the empty 1-over-0 side contributes
0, so the squared difference is 1 and sqrt(1)/(2-1) = 1. -/
theorem divisiveness_identical_prefs_counterexample :
    identicalPrefs oneVoterData ∧
    divisivenessOf oneVoterData (fun d => ratTable (borda d)) 0 ≠ 0 := by
  constructor
  · unfold identicalPrefs
    decide
  · have hv : vProps oneVoterData = [0, 1] := rfl
    have hvf1 : votersFor oneVoterData 0 1 = [0] := rfl
    have hvf2 : votersFor oneVoterData 1 0 = [] := rfl
    have hsub : (subsetData oneVoterData [0]).map toPair =
        [(⟨0, 1, 1⟩ : PairVote ℕ)] := rfl
    have hagg : aggregatePairs [(⟨0, 1, 1⟩ : PairVote ℕ)] =
        [(⟨0, 1, 1⟩ : PairVote ℕ)] := by
      norm_num [aggregatePairs, pairVotes, List.insertionSort,
        List.orderedInsert, pairLE]
    have hborda : borda [(⟨0, 1, 1⟩ : PairVote ℕ)] = [(0, 1), (1, 0)] := by
      norm_num [borda, allProposals, bordaScore, sortScoreDesc,
        List.insertionSort, List.orderedInsert, scoreGE]
    have hs1 : sideScore oneVoterData (fun d => ratTable (borda d)) 0 1 0 =
        1 := by
      unfold sideScore
      rw [if_neg (by rw [hvf1]; simp), hvf1, hsub, hagg]
      show scoreOfTable (ratTable (borda [(⟨0, 1, 1⟩ : PairVote ℕ)])) 0 = 1
      rw [hborda]
      norm_num [ratTable, scoreOfTable]
    have hs2 : sideScore oneVoterData (fun d => ratTable (borda d)) 1 0 0 =
        0 := by
      unfold sideScore
      rw [if_pos hvf2]
    have hsq : squaredDiffsSum oneVoterData
        (fun d => ratTable (borda d)) 0 = 1 := by
      unfold squaredDiffsSum
      rw [hv]
      norm_num [hs1, hs2]
    unfold divisivenessOf
    rw [hv]
    norm_num [hsq]

/-- C1 (amended): if for every pair of universe members the set of
voters preferring i over j coincides with the set preferring j over i
(in particular when both are empty, i.e. nobody is split by any rival
pair), then every strategy yields divisiveness exactly 0 for every
alternative.  The original claim (identical preferences alone suffice)
is refuted by the counterexample: with one voter the two sides of a
split are the whole electorate and the empty set, and only the empty
side contributes 0. -/
theorem divisiveness_equal_splits_zero {α V : Type} [LinearOrder α]
    [DecidableEq V] (data : List (VoterVote α V))
    (hsym : ∀ i ∈ vProps data, ∀ j ∈ vProps data,
      votersFor data i j ⊆ votersFor data j i ∧
      votersFor data j i ⊆ votersFor data i j)
    (agg : AggFn α) (i : α) (hi : i ∈ vProps data) :
    divisivenessOf data agg i = 0 := by
  have hzero : squaredDiffsSum data agg i = 0 := by
    unfold squaredDiffsSum
    apply List.sum_eq_zero
    intro x hx
    rcases List.mem_map.mp hx with ⟨j, hj, rfl⟩
    have hjmem : j ∈ vProps data := (List.mem_filter.mp hj).1
    have hsub := hsym i hi j hjmem
    have heqside : sideScore data agg i j i = sideScore data agg j i i := by
      by_cases hij : votersFor data i j = []
      · have hji : votersFor data j i = [] :=
          List.subset_nil.mp (hij ▸ hsub.2)
        unfold sideScore
        rw [hij, hji]
      · have hji : votersFor data j i ≠ [] := by
          intro h0
          exact hij (List.subset_nil.mp (h0 ▸ hsub.1))
        have hfilter : subsetData data (votersFor data i j) =
            subsetData data (votersFor data j i) := by
          unfold subsetData
          apply List.filter_congr
          intro r _
          exact decide_eq_decide.mpr ⟨fun h => hsub.1 h, fun h => hsub.2 h⟩
        unfold sideScore
        rw [if_neg hij, if_neg hji, hfilter]
    rw [heqside]
    simp
  unfold divisivenessOf
  split
  · rfl
  · rw [hzero, Real.sqrt_zero, zero_div]

/-- Witness for the amended C1: one voter who expressed both directions
of the only pair, so both sides of every split are the same voter
set. -/
theorem divisiveness_equal_splits_zero_witness :
    (∀ i ∈ vProps ([⟨0, 0, 1, 1⟩, ⟨0, 1, 0, 1⟩] : List (VoterVote ℕ ℕ)),
      ∀ j ∈ vProps ([⟨0, 0, 1, 1⟩, ⟨0, 1, 0, 1⟩] : List (VoterVote ℕ ℕ)),
        votersFor [⟨0, 0, 1, 1⟩, ⟨0, 1, 0, 1⟩] i j ⊆
          votersFor [⟨0, 0, 1, 1⟩, ⟨0, 1, 0, 1⟩] j i ∧
        votersFor [⟨0, 0, 1, 1⟩, ⟨0, 1, 0, 1⟩] j i ⊆
          votersFor [⟨0, 0, 1, 1⟩, ⟨0, 1, 0, 1⟩] i j) ∧
    0 ∈ vProps ([⟨0, 0, 1, 1⟩, ⟨0, 1, 0, 1⟩] : List (VoterVote ℕ ℕ)) ∧
    divisivenessOf ([⟨0, 0, 1, 1⟩, ⟨0, 1, 0, 1⟩] : List (VoterVote ℕ ℕ))
      (fun d => ratTable (borda d)) 0 = 0 :=
  ⟨by decide, by decide,
    divisiveness_equal_splits_zero _ (by decide)
      (fun d => ratTable (borda d)) 0 (by decide)⟩

/-- C7: there is a record list and a reordering of it on which the Elo
strategy produces different final ratings for alternative 0: with the
logistic-expectation update scaled by k * log(1 + count), processing
0-beats-1 before 1-beats-0 ends strictly lower for 0 than the reverse
order, so Elo is not invariant to record reordering. -/
theorem elo_order_dependent :
    ([⟨0, 1, 1⟩, ⟨1, 0, 1⟩] : List (PairVote ℕ)).Perm
      [⟨1, 0, 1⟩, ⟨0, 1, 1⟩] ∧
    eloRatings ([⟨0, 1, 1⟩, ⟨1, 0, 1⟩] : List (PairVote ℕ)) 1000 32 1 0 ≠
      eloRatings ([⟨1, 0, 1⟩, ⟨0, 1, 1⟩] : List (PairVote ℕ)) 1000 32 1 0 := by
  constructor
  · exact List.Perm.swap _ _ _
  have hlog : (0 : ℝ) < Real.log 2 := Real.log_pos (by norm_num)
  have hκ : (0 : ℝ) < 32 * Real.log 2 := mul_pos (by norm_num) hlog
  have hexp0 : expectedScore (1000 : ℝ) 1000 = 1 / 2 := by
    unfold expectedScore
    norm_num [Real.rpow_zero]
  have hg10 : eloStep 32 (fun _ => (1000 : ℝ)) (⟨0, 1, 1⟩ : PairVote ℕ) 0 =
      1000 + (32 * Real.log 2) / 2 := by
    simp [eloStep, updAt, hexp0]
    norm_num
    ring
  have hg11 : eloStep 32 (fun _ => (1000 : ℝ)) (⟨0, 1, 1⟩ : PairVote ℕ) 1 =
      1000 - (32 * Real.log 2) / 2 := by
    simp [eloStep, updAt, hexp0]
    norm_num
    ring
  have hg20 : eloStep 32 (fun _ => (1000 : ℝ)) (⟨1, 0, 1⟩ : PairVote ℕ) 0 =
      1000 - (32 * Real.log 2) / 2 := by
    simp [eloStep, updAt, hexp0]
    norm_num
    ring
  have hg21 : eloStep 32 (fun _ => (1000 : ℝ)) (⟨1, 0, 1⟩ : PairVote ℕ) 1 =
      1000 + (32 * Real.log 2) / 2 := by
    simp [eloStep, updAt, hexp0]
    norm_num
    ring
  have houter2 : ∀ g : ℕ → ℝ, eloStep 32 g (⟨1, 0, 1⟩ : PairVote ℕ) 0 =
      g 0 + (32 * Real.log 2) * (0 - expectedScore (g 0) (g 1)) := by
    intro g
    simp [eloStep, updAt]
    norm_num
  have houter1 : ∀ g : ℕ → ℝ, eloStep 32 g (⟨0, 1, 1⟩ : PairVote ℕ) 0 =
      g 0 + (32 * Real.log 2) * (1 - expectedScore (g 0) (g 1)) := by
    intro g
    simp [eloStep, updAt]
    norm_num
  have hA1 : eloRatings ([⟨0, 1, 1⟩, ⟨1, 0, 1⟩] : List (PairVote ℕ))
      1000 32 1 0 =
      eloStep 32 (eloStep 32 (fun _ => 1000) ⟨0, 1, 1⟩) ⟨1, 0, 1⟩ 0 := by
    simp [eloRatings, eloPass, Function.iterate_one]
  have hA2 : eloRatings ([⟨1, 0, 1⟩, ⟨0, 1, 1⟩] : List (PairVote ℕ))
      1000 32 1 0 =
      eloStep 32 (eloStep 32 (fun _ => 1000) ⟨1, 0, 1⟩) ⟨0, 1, 1⟩ 0 := by
    simp [eloRatings, eloPass, Function.iterate_one]
  have hexpo1 : ((1000 - (32 * Real.log 2) / 2) -
      (1000 + (32 * Real.log 2) / 2)) / 400 =
      -((32 * Real.log 2) / 400) := by ring
  have hexpo2 : ((1000 + (32 * Real.log 2) / 2) -
      (1000 - (32 * Real.log 2) / 2)) / 400 =
      (32 * Real.log 2) / 400 := by ring
  have hstep2A : expectedScore (1000 + (32 * Real.log 2) / 2)
      (1000 - (32 * Real.log 2) / 2) =
      1 / (1 + (10 : ℝ) ^ (-((32 * Real.log 2) / 400))) := by
    unfold expectedScore
    rw [hexpo1]
  have hstep2B : expectedScore (1000 - (32 * Real.log 2) / 2)
      (1000 + (32 * Real.log 2) / 2) =
      1 / (1 + (10 : ℝ) ^ ((32 * Real.log 2) / 400)) := by
    unfold expectedScore
    rw [hexpo2]
  rw [hA1, hA2, houter2 (eloStep 32 (fun _ => (1000 : ℝ)) ⟨0, 1, 1⟩),
    houter1 (eloStep 32 (fun _ => (1000 : ℝ)) ⟨1, 0, 1⟩),
    hg10, hg11, hg20, hg21, hstep2A, hstep2B]
  have ht : (0 : ℝ) < (32 * Real.log 2) / 400 := div_pos hκ (by norm_num)
  have hu0 : (0 : ℝ) < (10 : ℝ) ^ (-((32 * Real.log 2) / 400)) :=
    Real.rpow_pos_of_pos (by norm_num) _
  have hu1 : (10 : ℝ) ^ (-((32 * Real.log 2) / 400)) < 1 :=
    Real.rpow_lt_one_of_one_lt_of_neg (by norm_num) (neg_lt_zero.mpr ht)
  have hs1 : (1 : ℝ) < (10 : ℝ) ^ ((32 * Real.log 2) / 400) :=
    (Real.one_lt_rpow_iff_of_pos (by norm_num)).mpr
      (Or.inl ⟨by norm_num, ht⟩)
  have h1u : (0 : ℝ) < 1 + (10 : ℝ) ^ (-((32 * Real.log 2) / 400)) := by
    linarith
  have h1s : (0 : ℝ) < 1 + (10 : ℝ) ^ ((32 * Real.log 2) / 400) := by
    linarith
  have hfrac : 1 / (1 + (10 : ℝ) ^ ((32 * Real.log 2) / 400)) <
      1 / (1 + (10 : ℝ) ^ (-((32 * Real.log 2) / 400))) :=
    one_div_lt_one_div_of_lt h1u (by linarith)
  apply ne_of_lt
  nlinarith [mul_pos hκ (sub_pos.mpr hfrac)]

end Polapy
